import Mathlib

/-!
Verification of the DS2002 insurance data-mart ETL pipeline
(`etl_pipeline.py` and `etl_pipeline_mysql.py`).

The transform core is embedded shallowly: pandas dataframe operations become
list operations, `hashlib.sha256` becomes an executable SHA-256 over byte
lists, Python `datetime` arithmetic becomes proleptic-Gregorian calendar
functions on (year, month, day) triples, Python `float` becomes `ℚ` (every
comparison the code performs is at an exactly representable value), and
Python `int` becomes `Int`/`Nat`.
-/

namespace ETL

/-! ## SHA-256 (semantics of `hashlib.sha256`)

32-bit words are `Nat` values kept below `2^32`; every arithmetic
operation reduces modulo `2^32` exactly where the machine would overflow. -/

/-- `2^32`, the word modulus. -/
def M32 : Nat := 4294967296

/-- Word addition modulo `2^32`. -/
def wadd (a b : Nat) : Nat := (a + b) % M32

/-- Bitwise complement of a 32-bit word (the word is `< 2^32`). -/
def wnot (a : Nat) : Nat := 4294967295 - a

/-- Right rotation of a 32-bit word by `n` bits (`0 < n < 32`). -/
def rotr (n a : Nat) : Nat := a / 2 ^ n + a % 2 ^ n * 2 ^ (32 - n)

/-- Logical right shift of a 32-bit word by `n` bits. -/
def shr (n a : Nat) : Nat := a / 2 ^ n

/-- SHA-256 `Ch` function. -/
def shaCh (x y z : Nat) : Nat := (x &&& y) ^^^ (wnot x &&& z)

/-- SHA-256 `Maj` function. -/
def shaMaj (x y z : Nat) : Nat := (x &&& y) ^^^ (x &&& z) ^^^ (y &&& z)

/-- SHA-256 big sigma-0. -/
def bigS0 (x : Nat) : Nat := rotr 2 x ^^^ rotr 13 x ^^^ rotr 22 x

/-- SHA-256 big sigma-1. -/
def bigS1 (x : Nat) : Nat := rotr 6 x ^^^ rotr 11 x ^^^ rotr 25 x

/-- SHA-256 small sigma-0. -/
def smallS0 (x : Nat) : Nat := rotr 7 x ^^^ rotr 18 x ^^^ shr 3 x

/-- SHA-256 small sigma-1. -/
def smallS1 (x : Nat) : Nat := rotr 17 x ^^^ rotr 19 x ^^^ shr 10 x

/-- The 64 SHA-256 round constants. -/
def shaK : List Nat :=
  [1116352408, 1899447441, 3049323471, 3921009573, 961987163,
   1508970993, 2453635748, 2870763221, 3624381080, 310598401,
   607225278, 1426881987, 1925078388, 2162078206, 2614888103,
   3248222580, 3835390401, 4022224774, 264347078, 604807628,
   770255983, 1249150122, 1555081692, 1996064986, 2554220882,
   2821834349, 2952996808, 3210313671, 3336571891, 3584528711,
   113926993, 338241895, 666307205, 773529912, 1294757372,
   1396182291, 1695183700, 1986661051, 2177026350, 2456956037,
   2730485921, 2820302411, 3259730800, 3345764771, 3516065817,
   3600352804, 4094571909, 275423344, 430227734, 506948616,
   659060556, 883997877, 958139571, 1322822218, 1537002063,
   1747873779, 1955562222, 2024104815, 2227730452, 2361852424,
   2428436474, 2756734187, 3204031479, 3329325298]

/-- Initial SHA-256 hash state. -/
def shaH0 : List Nat :=
  [1779033703, 3144134277, 1013904242, 2773480762,
   1359893119, 2600822924, 528734635, 1541459225]

/-- Big-endian decomposition of `v` into `n` bytes. -/
def toBytesBE : Nat → Nat → List Nat
  | 0, _ => []
  | n + 1, v => toBytesBE n (v / 256) ++ [v % 256]

/-- Group a byte list into big-endian 32-bit words. -/
def bytesToWords : List Nat → List Nat
  | b0 :: b1 :: b2 :: b3 :: rest => (((b0 * 256 + b1) * 256 + b2) * 256 + b3) :: bytesToWords rest
  | _ => []

/-- SHA-256 padding: append `0x80`, zero-fill to 56 mod 64, then the
64-bit big-endian bit length. -/
def padMsg (msg : List Nat) : List Nat :=
  let L := msg.length
  let zeros := (120 - (L + 1) % 64) % 64
  msg ++ [0x80] ++ List.replicate zeros 0 ++ toBytesBE 8 (L * 8 % 2 ^ 64)

/-- Extend a 16-word message schedule by `n` further words. -/
def extendSched : Nat → List Nat → List Nat
  | 0, w => w
  | n + 1, w =>
    let t := wadd (wadd (smallS1 (w.getD (w.length - 2) 0)) (w.getD (w.length - 7) 0))
                  (wadd (smallS0 (w.getD (w.length - 15) 0)) (w.getD (w.length - 16) 0))
    extendSched n (w ++ [t])

/-- One SHA-256 round on the 8-word working state. -/
def shaRound (st : Nat × Nat × Nat × Nat × Nat × Nat × Nat × Nat) (kw : Nat × Nat) :
    Nat × Nat × Nat × Nat × Nat × Nat × Nat × Nat :=
  match st, kw with
  | (a, b, c, d, e, f, g, h), (ki, wi) =>
    let t1 := wadd h (wadd (bigS1 e) (wadd (shaCh e f g) (wadd ki wi)))
    let t2 := wadd (bigS0 a) (shaMaj a b c)
    (wadd t1 t2, a, b, c, wadd d t1, e, f, g)

/-- Compress one 64-byte block into the hash state. -/
def shaCompress (h : List Nat) (block : List Nat) : List Nat :=
  let w := extendSched 48 (bytesToWords block)
  let init := (h.getD 0 0, h.getD 1 0, h.getD 2 0, h.getD 3 0,
               h.getD 4 0, h.getD 5 0, h.getD 6 0, h.getD 7 0)
  let fin := (shaK.zip w).foldl shaRound init
  match fin with
  | (a, b, c, d, e, f, g, hh) =>
    List.zipWith wadd h [a, b, c, d, e, f, g, hh]

/-- Fold all 64-byte blocks of a padded message into the state. -/
def shaBlocks (h : List Nat) (l : List Nat) : List Nat :=
  if l.isEmpty then h
  else shaBlocks (shaCompress h (l.take 64)) (l.drop 64)
termination_by l.length
decreasing_by
  simp only [List.isEmpty_eq_true] at *
  simp only [List.length_drop]
  have : l.length ≠ 0 := by simpa using (by assumption : l ≠ [])
  omega

/-- SHA-256 digest of a byte string, read as a 256-bit unsigned integer
(the value of `int(hashlib.sha256(msg).hexdigest(), 16)`). -/
def sha256Nat (msg : List Nat) : Nat :=
  (shaBlocks shaH0 (padMsg msg)).foldl (fun acc w => acc * M32 + w) 0

/-- ASCII bytes of a string (`str.encode()` for ASCII text). -/
def strBytes (s : String) : List Nat := s.data.map Char.toNat

/-! ## Calendar (semantics of Python `datetime.date` arithmetic)

Dates are (year, month, day) triples in the proleptic Gregorian calendar,
exactly as `datetime` uses; `toOrd` is `date.toordinal()`. -/

/-- A calendar date. -/
structure Date where
  year : Nat
  month : Nat
  day : Nat
deriving DecidableEq, Repr

/-- Gregorian leap-year rule (`calendar.isleap`). -/
def isLeap (y : Nat) : Bool := y % 4 == 0 && (y % 100 != 0 || y % 400 == 0)

/-- Length of month `m` (1-based) in a (non-)leap year. -/
def monthLen (leap : Bool) (m : Nat) : Nat :=
  [31, if leap then 29 else 28, 31, 30, 31, 30, 31, 31, 30, 31, 30, 31].getD (m - 1) 0

/-- Days in months strictly before month `m` (1-based). -/
def daysBeforeMonth (leap : Bool) (m : Nat) : Nat :=
  ((List.range (m - 1)).map (fun i => monthLen leap (i + 1))).sum

/-- Days in years strictly before year `y` (Python `_days_before_year`). -/
def daysBeforeYear (y : Nat) : Nat :=
  (y - 1) * 365 + (y - 1) / 4 + (y - 1) / 400 - (y - 1) / 100

/-- `date.toordinal()`: day number with 0001-01-01 ↦ 1. -/
def toOrd (d : Date) : Nat :=
  daysBeforeYear d.year + daysBeforeMonth (isLeap d.year) d.month + d.day

/-- Validity of a date triple (year at least 1, as in `datetime.MINYEAR`). -/
def ValidDate (d : Date) : Prop :=
  1 ≤ d.year ∧ 1 ≤ d.month ∧ d.month ≤ 12 ∧ 1 ≤ d.day ∧ d.day ≤ monthLen (isLeap d.year) d.month

instance (d : Date) : Decidable (ValidDate d) := by unfold ValidDate; infer_instance

/-- 365 or 366. -/
def daysInYear (y : Nat) : Nat := if isLeap y then 366 else 365

/-- The calendar successor of a date (`d + timedelta(days=1)`). -/
def nextDay (d : Date) : Date :=
  if d.day < monthLen (isLeap d.year) d.month then ⟨d.year, d.month, d.day + 1⟩
  else if d.month < 12 then ⟨d.year, d.month + 1, 1⟩
  else ⟨d.year + 1, 1, 1⟩

/-- The integer YYYYMMDD encoding, `int(dt.strftime("%Y%m%d"))`. -/
def dateKey (d : Date) : Nat := d.year * 10000 + d.month * 100 + d.day

/-- `date.weekday()`: Monday = 0 … Sunday = 6 (ordinal 1 is a Monday). -/
def pyWeekday (d : Date) : Nat := (toOrd d - 1) % 7

/-- `strftime("%A")` day name, from `weekday()`. -/
def dayName (d : Date) : String :=
  ["Monday", "Tuesday", "Wednesday", "Thursday", "Friday", "Saturday", "Sunday"].getD
    (pyWeekday d) ""

/-- `strftime("%B")` month name. -/
def monthName (d : Date) : String :=
  ["January", "February", "March", "April", "May", "June", "July", "August",
   "September", "October", "November", "December"].getD (d.month - 1) ""

/-- One row of the date dimension, as built in `make_date_dim`. -/
structure DateDimRow where
  date_key : Nat
  full_date : Date
  day_of_week : Nat
  day_name : String
  month_of_year : Nat
  month_name : String
  calendar_quarter : Nat
  calendar_year : Nat
  is_weekend : Nat
deriving DecidableEq, Repr

/-- Build one date-dimension row from the loop variable `cur`. -/
def mkDateDimRow (cur : Date) : DateDimRow :=
  { date_key := dateKey cur
    full_date := cur
    day_of_week := pyWeekday cur + 1
    day_name := dayName cur
    month_of_year := cur.month
    month_name := monthName cur
    calendar_quarter := (cur.month - 1) / 3 + 1
    calendar_year := cur.year
    is_weekend := if pyWeekday cur ≥ 5 then 1 else 0 }

/-- The `while cur <= end_dt` iteration, with explicit fuel; the fuel is
instantiated so that it never runs out before the comparison fails. -/
def dateRangeAux : Nat → Date → Nat → List Date
  | 0, _, _ => []
  | fuel + 1, cur, stop =>
    if toOrd cur ≤ stop then cur :: dateRangeAux fuel (nextDay cur) stop else []

/-- All dates from `s` to `e` inclusive, in ascending order. -/
def dateRange (s e : Date) : List Date :=
  dateRangeAux (toOrd e + 1 - toOrd s) s (toOrd e)

/-- `make_date_dim(start, end)`: one row per calendar day of the range. -/
def make_date_dim (s e : Date) : List DateDimRow :=
  (dateRange s e).map mkDateDimRow

/-! ## Attribute classifiers (`age_band`, `bmi_category`) -/

/-- The `bins` table of `age_band`, verbatim from the source. -/
def ageBins : List (Int × Int × String) :=
  [(0, 17, "0-17"), (18, 24, "18-24"), (25, 34, "25-34"), (35, 44, "35-44"),
   (45, 54, "45-54"), (55, 64, "55-64"), (65, 200, "65+")]

/-- `age_band(age)`: first bin with `lo <= age <= hi`, else `"unknown"`. -/
def age_band (age : Int) : String :=
  match ageBins.find? (fun b => decide (b.1 ≤ age) && decide (age ≤ b.2.1)) with
  | some b => b.2.2
  | none => "unknown"

/-- `bmi_category(bmi)`; Python floats become rationals (18.5, 25 and 30 are
exactly representable, so every comparison agrees with the float one). -/
def bmi_category (bmi : ℚ) : String :=
  if bmi < 37 / 2 then "Underweight"
  else if bmi < 25 then "Normal"
  else if bmi < 30 then "Overweight"
  else "Obese"

/-! ## Deterministic date assigner (`deterministc_date_for_row`) -/

/-- `deterministc_date_for_row(row_id, year)`: SHA-256 of the decimal string
of `row_id`, modulo 365, gives a day-of-year; the result is January 1 of
`year` plus that many days, as a YYYYMMDD integer. -/
def deterministc_date_for_row (row_id : Int) (year : Nat) : Nat :=
  let rnd := sha256Nat (strBytes (toString row_id))
  let day_of_year := rnd % 365 + 1
  dateKey (nextDay^[day_of_year - 1] ⟨year, 1, 1⟩)

/-! ## Raw records and the transform stage of `main` -/

/-- One row of `insurance.csv`. -/
structure RawRecord where
  age : Int
  sex : String
  bmi : ℚ
  children : Int
  smoker : String
  region : String
  charges : ℚ
deriving DecidableEq, Repr

/-- One region object of `providers.json` (or the Mongo collection). -/
structure Provider where
  region : String
  preferred_provider : String
  network_tier : String
deriving DecidableEq, Repr

/-- ASCII whitespace, as stripped by `str.strip()` (the region labels of
this dataset contain no other whitespace). -/
def isSpaceChar (c : Char) : Bool := c == ' ' || c == '\t' || c == '\n' || c == '\r'

/-- Strip leading and trailing whitespace from a character list. -/
def trimChars (l : List Char) : List Char :=
  ((l.dropWhile isSpaceChar).reverse.dropWhile isSpaceChar).reverse

/-- `.str.strip().str.lower()` on a region label. -/
def normalizeRegion (s : String) : String := String.mk ((trimChars s.data).map Char.toLower)

/-- A raw record after the transform stage: derived bands attached and the
region label normalized (lines 116–121 of `etl_pipeline.py`). -/
structure InsRecord where
  age : Int
  sex : String
  bmi : ℚ
  children : Int
  smoker : String
  region : String
  charges : ℚ
  age_band : String
  bmi_category : String
deriving DecidableEq, Repr

/-- Apply the transform stage to one raw record. -/
def enrich (r : RawRecord) : InsRecord :=
  { age := r.age, sex := r.sex, bmi := r.bmi, children := r.children,
    smoker := r.smoker, region := normalizeRegion r.region, charges := r.charges,
    age_band := age_band r.age, bmi_category := bmi_category r.bmi }

/-- The seven-column natural key of the insured dimension
(`["age","age_band","sex","smoker","bmi","bmi_category","children"]`). -/
structure InsKey where
  age : Int
  age_band : String
  sex : String
  smoker : String
  bmi : ℚ
  bmi_category : String
  children : Int
deriving DecidableEq, Repr

/-- Project a transformed record onto the insured natural key. -/
def insuredTuple (r : InsRecord) : InsKey :=
  ⟨r.age, r.age_band, r.sex, r.smoker, r.bmi, r.bmi_category, r.children⟩

/-- Worker for `drop_duplicates()`: keep elements not yet seen. -/
def dedupFirstAux {α : Type} [DecidableEq α] (seen : List α) : List α → List α
  | [] => []
  | x :: xs => if x ∈ seen then dedupFirstAux seen xs else x :: dedupFirstAux (x :: seen) xs

/-- `drop_duplicates()` (keep the first occurrence of each value). -/
def dedupFirst {α : Type} [DecidableEq α] (l : List α) : List α := dedupFirstAux [] l

/-- `df.index + 1` surrogate-key assignment: combine each element with its
1-based position via `mk`. -/
def withKeys {α β : Type} (mk : α → Nat → β) : Nat → List α → List β
  | _, [] => []
  | i, a :: as => mk a i :: withKeys mk (i + 1) as

/-- `left.merge(right, on=…, how="left")`: every left row joined with each
matching right row, or with a null right side when nothing matches. -/
def leftMerge {α β γ : Type} (ls : List α) (rs : List β)
    (sel : α → β → Bool) (combine : α → Option β → γ) : List γ :=
  ls.flatMap fun a =>
    match rs.filter (sel a) with
    | [] => [combine a none]
    | bs => bs.map (fun b => combine a (some b))

/-- A region-dimension row before key assignment: the normalized source
label plus the (possibly missing) enrichment columns from the reference. -/
structure RegionPre where
  region : String
  preferred_provider : Option String
  network_tier : Option String
deriving DecidableEq, Repr

/-- A region-dimension row with its surrogate key. -/
structure RegionRow where
  region : String
  preferred_provider : Option String
  network_tier : Option String
  region_key : Nat
deriving DecidableEq, Repr

/-- Lexicographic comparison of character lists by code point — the string
order Python (and hence pandas `sort_values`) uses. -/
def charListLe : List Char → List Char → Bool
  | [], _ => true
  | _ :: _, [] => false
  | a :: as, b :: bs =>
    if a.toNat < b.toNat then true
    else if b.toNat < a.toNat then false
    else charListLe as bs

/-- String comparison by code points. -/
def strLe (a b : String) : Bool := charListLe a.data b.data

/-- Insert into a list kept sorted by region label. -/
def insertByRegion (x : RegionPre) : List RegionPre → List RegionPre
  | [] => [x]
  | y :: ys => if strLe x.region y.region then x :: y :: ys else y :: insertByRegion x ys

/-- `sort_values("region")`: sort rows by region label ascending. -/
def sortByRegion : List RegionPre → List RegionPre
  | [] => []
  | x :: xs => insertByRegion x (sortByRegion xs)

/-- The distinct normalized region labels of the source, in first-occurrence
order (`insured[["region"]].drop_duplicates()`). -/
def sourceRegions (records : List RawRecord) : List String :=
  dedupFirst (records.map (fun r => normalizeRegion r.region))

/-- The left join of the distinct normalized source labels against the
reference dataset, on the verbatim `region` field of the reference
(line 124 of `etl_pipeline.py`). -/
def regionJoined (records : List RawRecord) (providers : List Provider) : List RegionPre :=
  leftMerge (sourceRegions records) providers
    (fun ℓ p => p.region == ℓ)
    (fun ℓ p? => RegionPre.mk ℓ (p?.map Provider.preferred_provider) (p?.map Provider.network_tier))

/-- Attach a surrogate key to a pre-row of the region dimension. -/
def mkRegionRow (r : RegionPre) (i : Nat) : RegionRow :=
  RegionRow.mk r.region r.preferred_provider r.network_tier i

/-- The region dimension: the join sorted by label, surrogate keys 1..N in
sorted order (lines 125–126 of `etl_pipeline.py`). -/
def regionDim (records : List RawRecord) (providers : List Provider) : List RegionRow :=
  withKeys mkRegionRow 1 (sortByRegion (regionJoined records providers))

/-- An insured-dimension row: the seven-column natural key plus key. -/
structure InsuredRow where
  tuple : InsKey
  insured_key : Nat
deriving DecidableEq, Repr

/-- The insured dimension: the seven columns deduplicated keeping first
occurrences, surrogate keys 1..N in that order (lines 128–130). -/
def insuredDim (records : List RawRecord) : List InsuredRow :=
  withKeys InsuredRow.mk 1 (dedupFirst ((records.map enrich).map insuredTuple))

/-- One fact row (`fact_claims`): the three resolved surrogate keys, the
measure, and the fact surrogate key. Keys produced by a left merge are
`Option`-valued, as an unmatched merge leaves a null. -/
structure FactRow where
  insured_key : Option Nat
  region_key : Option Nat
  date_key : Nat
  charges : ℚ
  claim_key : Nat
deriving DecidableEq, Repr

/-- The first fact merge: transformed records against the insured dimension
on the seven-column tuple (line 136). -/
def factStep1 (records : List RawRecord) : List (InsRecord × Option Nat) :=
  leftMerge (records.map enrich) (insuredDim records)
    (fun r d => d.tuple == insuredTuple r)
    (fun r d? => (r, d?.map InsuredRow.insured_key))

/-- The second fact merge: against the region dimension on the region label
(line 137). -/
def factPre (records : List RawRecord) (providers : List Provider) :
    List (InsRecord × Option Nat × Option Nat) :=
  leftMerge (factStep1 records) (regionDim records providers)
    (fun rp d => d.region == rp.1.region)
    (fun rp d? => (rp.1, rp.2, d?.map RegionRow.region_key))

/-- `row_id = arange(1, N+1)` (line 139): pair each merged row with its
1-based position. -/
def factWithRow (records : List RawRecord) (providers : List Provider) :
    List ((InsRecord × Option Nat × Option Nat) × Nat) :=
  withKeys (fun x i => (x, i)) 1 (factPre records providers)

/-- One fact row from a merged row with its row id, and the claim key
(lines 140–143): the date key is the deterministic date of the row id. -/
def mkFactRow (x : (InsRecord × Option Nat × Option Nat) × Nat) (i : Nat) : FactRow :=
  FactRow.mk x.1.2.1 x.1.2.2 (deterministc_date_for_row (Int.ofNat x.2) 2010) x.1.1.charges i

/-- The fact table: `claim_key = arange(1, N+1)` over the date-keyed rows. -/
def factRows (records : List RawRecord) (providers : List Provider) : List FactRow :=
  withKeys mkFactRow 1 (factWithRow records providers)

/-! ## Module namespace of `etl_pipeline.py` (for the unbound-name check)

The names bound at module level when `main` runs: the five `import`ed
modules, the two `from`-imports, the `pandas as pd` alias, the six path
constants and the six function definitions. -/

/-- Every name bound in the module namespace of `etl_pipeline.py`. -/
def etlPipelineNames : List String :=
  ["os", "json", "sqlite3", "random", "hashlib", "pd", "datetime", "timedelta",
   "PROJECT_ROOT", "DATA_DIR", "SQL_DIR", "SOURCES_DIR", "MART_DB", "CLASSICMODELS_DB",
   "exec_sql_script", "build_classicmodels_sqlite", "make_date_dim", "age_band",
   "bmi_category", "deterministc_date_for_row", "main"]

/-- Python name resolution: a global name either resolves or raises
`NameError`. -/
def evalName (env : List String) (n : String) : Except String Unit :=
  if env.contains n then Except.ok () else Except.error ("NameError: name " ++ n ++ " is not defined")

/-- The tail of `main` in `etl_pipeline.py` from the fact-construction step
on: line 139 first evaluates the global name `np`; only if that succeeds do
the fact table and the load stage run. -/
def mainFromFactStep (records : List RawRecord) (providers : List Provider) :
    Except String (List FactRow) := do
  let _ ← evalName etlPipelineNames "np"
  pure (factRows records providers)

/-! ## Generic lemmas: `dedupFirst` -/

theorem mem_dedupFirstAux {α : Type} [DecidableEq α] (a : α) (l : List α) :
    ∀ seen, a ∈ dedupFirstAux seen l ↔ a ∈ l ∧ a ∉ seen := by
  induction l with
  | nil => intro seen; simp [dedupFirstAux]
  | cons x xs ih =>
    intro seen
    simp only [dedupFirstAux]
    by_cases hx : x ∈ seen
    · rw [if_pos hx, ih seen]
      simp only [List.mem_cons]
      constructor
      · rintro ⟨h1, h2⟩
        exact ⟨Or.inr h1, h2⟩
      · rintro ⟨h1 | h1, h2⟩
        · exact absurd (h1 ▸ hx) h2
        · exact ⟨h1, h2⟩
    · rw [if_neg hx]
      simp only [List.mem_cons, ih (x :: seen)]
      constructor
      · rintro (rfl | ⟨h1, h2⟩)
        · exact ⟨Or.inl rfl, hx⟩
        · exact ⟨Or.inr h1, fun hs => h2 (Or.inr hs)⟩
      · rintro ⟨rfl | h1, h2⟩
        · exact Or.inl rfl
        · by_cases hax : a = x
          · exact Or.inl hax
          · refine Or.inr ⟨h1, fun hc => ?_⟩
            rcases hc with h | h
            · exact hax h
            · exact h2 h

theorem mem_dedupFirst {α : Type} [DecidableEq α] {a : α} (l : List α) :
    a ∈ dedupFirst l ↔ a ∈ l := by
  unfold dedupFirst
  rw [mem_dedupFirstAux]
  simp

theorem nodup_dedupFirstAux {α : Type} [DecidableEq α] (l : List α) :
    ∀ seen, (dedupFirstAux seen l).Nodup := by
  induction l with
  | nil => intro seen; simp [dedupFirstAux]
  | cons x xs ih =>
    intro seen
    simp only [dedupFirstAux]
    by_cases hx : x ∈ seen
    · rw [if_pos hx]
      exact ih seen
    · rw [if_neg hx, List.nodup_cons]
      refine ⟨fun hmem => ?_, ih (x :: seen)⟩
      exact ((mem_dedupFirstAux x xs (x :: seen)).mp hmem).2 (List.mem_cons_self x seen)

theorem nodup_dedupFirst {α : Type} [DecidableEq α] (l : List α) :
    (dedupFirst l).Nodup := nodup_dedupFirstAux l []

theorem dedupFirstAux_sublist {α : Type} [DecidableEq α] (l : List α) :
    ∀ seen, (dedupFirstAux seen l).Sublist l := by
  induction l with
  | nil => intro seen; simp [dedupFirstAux]
  | cons x xs ih =>
    intro seen
    simp only [dedupFirstAux]
    by_cases hx : x ∈ seen
    · rw [if_pos hx]
      exact (ih seen).trans (List.sublist_cons_self x xs)
    · rw [if_neg hx]
      exact List.Sublist.cons₂ x (ih (x :: seen))

theorem dedupFirst_sublist {α : Type} [DecidableEq α] (l : List α) :
    (dedupFirst l).Sublist l := dedupFirstAux_sublist l []

theorem length_dedupFirst {α : Type} [DecidableEq α] (l : List α) :
    (dedupFirst l).length = l.toFinset.card := by
  have hfin : (dedupFirst l).toFinset = l.toFinset := by
    ext a
    simp [List.mem_toFinset, mem_dedupFirst]
  rw [← hfin, List.toFinset_card_of_nodup (nodup_dedupFirst l)]

theorem dedupFirstAux_pairwise_indexOf {α : Type} [DecidableEq α] (l : List α) :
    ∀ seen, (dedupFirstAux seen l).Pairwise (fun a b => l.indexOf a < l.indexOf b) := by
  induction l with
  | nil => intro seen; simp [dedupFirstAux]
  | cons x xs ih =>
    intro seen
    simp only [dedupFirstAux]
    by_cases hx : x ∈ seen
    · rw [if_pos hx]
      refine (ih seen).imp_of_mem ?_
      intro a b ha hb hab
      have ha2 := (mem_dedupFirstAux a xs seen).mp ha
      have hb2 := (mem_dedupFirstAux b xs seen).mp hb
      have hax : x ≠ a := fun h => ha2.2 (h ▸ hx)
      have hbx : x ≠ b := fun h => hb2.2 (h ▸ hx)
      rw [List.indexOf_cons_ne xs hax, List.indexOf_cons_ne xs hbx]
      exact Nat.succ_lt_succ hab
    · rw [if_neg hx, List.pairwise_cons]
      constructor
      · intro b hb
        have hb2 := (mem_dedupFirstAux b xs (x :: seen)).mp hb
        have hbx : x ≠ b := fun h => hb2.2 (h ▸ List.mem_cons_self x seen)
        rw [List.indexOf_cons_self, List.indexOf_cons_ne xs hbx]
        exact Nat.succ_pos _
      · refine (ih (x :: seen)).imp_of_mem ?_
        intro a b ha hb hab
        have ha2 := (mem_dedupFirstAux a xs (x :: seen)).mp ha
        have hb2 := (mem_dedupFirstAux b xs (x :: seen)).mp hb
        have hax : x ≠ a := fun h => ha2.2 (h ▸ List.mem_cons_self x seen)
        have hbx : x ≠ b := fun h => hb2.2 (h ▸ List.mem_cons_self x seen)
        rw [List.indexOf_cons_ne xs hax, List.indexOf_cons_ne xs hbx]
        exact Nat.succ_lt_succ hab

theorem dedupFirst_pairwise_indexOf {α : Type} [DecidableEq α] (l : List α) :
    (dedupFirst l).Pairwise (fun a b => l.indexOf a < l.indexOf b) :=
  dedupFirstAux_pairwise_indexOf l []

/-! ## Generic lemmas: `withKeys` -/

theorem length_withKeys {α β : Type} (mk : α → Nat → β) (i : Nat) (l : List α) :
    (withKeys mk i l).length = l.length := by
  induction l generalizing i with
  | nil => rfl
  | cons a as ih => simp [withKeys, ih]

theorem withKeys_map_key {α β : Type} (mk : α → Nat → β) (p : β → Nat)
    (hp : ∀ a j, p (mk a j) = j) (i : Nat) (l : List α) :
    (withKeys mk i l).map p = List.range' i l.length := by
  induction l generalizing i with
  | nil => rfl
  | cons a as ih => simp [withKeys, List.range'_succ, hp, ih]

theorem withKeys_map_proj {α β γ : Type} (mk : α → Nat → β) (p : β → γ) (q : α → γ)
    (hp : ∀ a j, p (mk a j) = q a) (i : Nat) (l : List α) :
    (withKeys mk i l).map p = l.map q := by
  induction l generalizing i with
  | nil => rfl
  | cons a as ih => simp [withKeys, hp, ih]

theorem get_withKeys {α β : Type} (mk : α → Nat → β) (i : Nat) (l : List α) (j : Nat)
    (hj : j < (withKeys mk i l).length) (hj2 : j < l.length) :
    (withKeys mk i l).get ⟨j, hj⟩ = mk (l.get ⟨j, hj2⟩) (i + j) := by
  induction l generalizing i j with
  | nil => exact absurd hj2 (by simp)
  | cons a as ih =>
    cases j with
    | zero => simp [withKeys]
    | succ j =>
      have := ih (i + 1) j (by simpa [withKeys, Nat.succ_lt_succ_iff] using hj)
        (by simpa using hj2)
      simpa [withKeys, Nat.add_assoc, Nat.add_comm 1 j] using this

theorem mem_withKeys {α β : Type} (mk : α → Nat → β) (i : Nat) (l : List α) (b : β)
    (hb : b ∈ withKeys mk i l) : ∃ a ∈ l, ∃ j, b = mk a j := by
  induction l generalizing i with
  | nil => exact absurd hb (by simp [withKeys])
  | cons a as ih =>
    simp only [withKeys, List.mem_cons] at hb
    rcases hb with rfl | hb
    · exact ⟨a, by simp, i, rfl⟩
    · obtain ⟨a', ha', j, rfl⟩ := ih (i + 1) hb
      exact ⟨a', by simp [ha'], j, rfl⟩

theorem exists_mem_withKeys {α β : Type} (mk : α → Nat → β) (i : Nat) (l : List α) (a : α)
    (ha : a ∈ l) : ∃ j, mk a j ∈ withKeys mk i l := by
  induction l generalizing i with
  | nil => exact absurd ha (by simp)
  | cons x xs ih =>
    rcases List.mem_cons.mp ha with rfl | ha
    · exact ⟨i, by simp [withKeys]⟩
    · obtain ⟨j, hj⟩ := ih (i + 1) ha
      exact ⟨j, by simp [withKeys, hj]⟩

/-! ## Generic lemmas: `leftMerge` -/

theorem find?_eq_head?_filter {α : Type} (p : α → Bool) (l : List α) :
    l.find? p = (l.filter p).head? := by
  induction l with
  | nil => rfl
  | cons a as ih =>
    by_cases h : p a
    · rw [List.find?_cons_of_pos _ h, List.filter_cons_of_pos h]
      rfl
    · rw [List.find?_cons_of_neg _ (by simp [h]), List.filter_cons_of_neg (by simp [h]), ih]

theorem leftMerge_cons {α β γ : Type} (a : α) (as : List α) (rs : List β)
    (sel : α → β → Bool) (combine : α → Option β → γ) :
    leftMerge (a :: as) rs sel combine =
      (match rs.filter (sel a) with
        | [] => [combine a none]
        | bs => bs.map (fun b => combine a (some b))) ++ leftMerge as rs sel combine := by
  simp only [leftMerge, List.flatMap_cons]

theorem leftMerge_eq_map {α β γ : Type} (ls : List α) (rs : List β)
    (sel : α → β → Bool) (combine : α → Option β → γ)
    (h : ∀ a ∈ ls, (rs.filter (sel a)).length ≤ 1) :
    leftMerge ls rs sel combine = ls.map (fun a => combine a (rs.find? (sel a))) := by
  induction ls with
  | nil => rfl
  | cons a as ih =>
    have ha := h a (by simp)
    have htail := ih (fun x hx => h x (by simp [hx]))
    simp only [List.map_cons]
    rw [← htail, leftMerge_cons, find?_eq_head?_filter]
    cases hf : rs.filter (sel a) with
    | nil => simp [hf]
    | cons b bs =>
      have hbs : bs = [] := by
        rw [hf] at ha
        simp only [List.length_cons] at ha
        exact List.eq_nil_of_length_eq_zero (by omega)
      subst hbs
      simp [hf]

theorem leftMerge_shape {α β γ : Type} (ls : List α) (rs : List β)
    (sel : α → β → Bool) (combine : α → Option β → γ) (x : γ)
    (hx : x ∈ leftMerge ls rs sel combine) :
    ∃ a ∈ ls, (x = combine a none ∧ rs.filter (sel a) = []) ∨
      ∃ b ∈ rs, sel a b = true ∧ x = combine a (some b) := by
  simp only [leftMerge, List.mem_flatMap] at hx
  obtain ⟨a, ha, hxa⟩ := hx
  refine ⟨a, ha, ?_⟩
  cases hf : rs.filter (sel a) with
  | nil =>
    rw [hf] at hxa
    simp at hxa
    exact Or.inl ⟨hxa, rfl⟩
  | cons b bs =>
    rw [hf] at hxa
    simp only [List.mem_map] at hxa
    obtain ⟨b', hb', rfl⟩ := hxa
    have hmem : b' ∈ rs.filter (sel a) := hf ▸ hb'
    exact Or.inr ⟨b', (List.mem_filter.mp hmem).1, (List.mem_filter.mp hmem).2, rfl⟩

theorem leftMerge_left_mem {α β γ : Type} (ls : List α) (rs : List β)
    (sel : α → β → Bool) (combine : α → Option β → γ) (a : α) (ha : a ∈ ls) :
    ∃ o, combine a o ∈ leftMerge ls rs sel combine := by
  simp only [leftMerge, List.mem_flatMap]
  cases hf : rs.filter (sel a) with
  | nil => exact ⟨none, a, ha, by simp [hf]⟩
  | cons b bs => exact ⟨some b, a, ha, by simp [hf]⟩

theorem filter_beq_length_le_one {α κ : Type} [DecidableEq κ] (f : α → κ) (l : List α)
    (hk : (l.map f).Nodup) (k : κ) :
    (l.filter (fun x => f x == k)).length ≤ 1 := by
  induction l with
  | nil => simp
  | cons x xs ih =>
    simp only [List.map_cons, List.nodup_cons, List.mem_map] at hk
    rw [List.filter_cons]
    by_cases hx : f x == k
    · have : xs.filter (fun y => f y == k) = [] := by
        rw [List.filter_eq_nil_iff]
        intro y hy hyk
        exact hk.1 ⟨y, hy, by rw [eq_of_beq hyk, eq_of_beq hx]⟩
      simp [hx, this]
    · simpa [hx] using ih hk.2

/-! ## Generic lemmas: region sort -/

theorem perm_insertByRegion (x : RegionPre) (l : List RegionPre) :
    (insertByRegion x l).Perm (x :: l) := by
  induction l with
  | nil => exact List.Perm.refl _
  | cons y ys ih =>
    simp only [insertByRegion]
    by_cases h : strLe x.region y.region = true
    · rw [if_pos h]
    · rw [if_neg h]
      exact (ih.cons y).trans (List.Perm.swap x y ys)

theorem perm_sortByRegion (l : List RegionPre) : (sortByRegion l).Perm l := by
  induction l with
  | nil => exact List.Perm.refl _
  | cons x xs ih =>
    simp only [sortByRegion]
    exact (perm_insertByRegion x (sortByRegion xs)).trans (ih.cons x)

theorem charListLe_total : ∀ (a b : List Char), charListLe a b = true ∨ charListLe b a = true := by
  intro a
  induction a with
  | nil => intro b; exact Or.inl rfl
  | cons x xs ih =>
    intro b
    cases b with
    | nil => exact Or.inr rfl
    | cons y ys =>
      by_cases h1 : x.toNat < y.toNat
      · exact Or.inl (by simp [charListLe, h1])
      · by_cases h2 : y.toNat < x.toNat
        · exact Or.inr (by simp [charListLe, h2])
        · rcases ih ys with h | h
          · exact Or.inl (by simp [charListLe, h1, h2, h])
          · exact Or.inr (by simp [charListLe, h1, h2, h])

theorem charListLe_trans : ∀ (a b c : List Char), charListLe a b = true →
    charListLe b c = true → charListLe a c = true := by
  intro a
  induction a with
  | nil => intro b c _ _; rfl
  | cons x xs ih =>
    intro b c hab hbc
    cases b with
    | nil => simp [charListLe] at hab
    | cons y ys =>
      cases c with
      | nil => simp [charListLe] at hbc
      | cons z zs =>
        simp only [charListLe] at hab hbc ⊢
        by_cases hxy : x.toNat < y.toNat
        · by_cases hyz : y.toNat < z.toNat
          · rw [if_pos (by omega)]
          · rw [if_neg hyz] at hbc
            by_cases hzy : z.toNat < y.toNat
            · rw [if_pos hzy] at hbc
              simp at hbc
            · rw [if_pos (by omega)]
        · rw [if_neg hxy] at hab
          by_cases hyx : y.toNat < x.toNat
          · rw [if_pos hyx] at hab
            simp at hab
          · rw [if_neg hyx] at hab
            by_cases hyz : y.toNat < z.toNat
            · rw [if_pos (by omega)]
            · rw [if_neg hyz] at hbc
              by_cases hzy : z.toNat < y.toNat
              · rw [if_pos hzy] at hbc
                simp at hbc
              · rw [if_neg hzy] at hbc
                rw [if_neg (by omega), if_neg (by omega)]
                exact ih ys zs hab hbc

theorem strLe_total (a b : String) : strLe a b = true ∨ strLe b a = true :=
  charListLe_total a.data b.data

theorem strLe_trans (a b c : String) (h1 : strLe a b = true) (h2 : strLe b c = true) :
    strLe a c = true :=
  charListLe_trans a.data b.data c.data h1 h2

theorem sorted_insertByRegion (x : RegionPre) (l : List RegionPre)
    (h : l.Pairwise (fun a b => strLe a.region b.region = true)) :
    (insertByRegion x l).Pairwise (fun a b => strLe a.region b.region = true) := by
  induction l with
  | nil => simp [insertByRegion]
  | cons y ys ih =>
    rw [List.pairwise_cons] at h
    simp only [insertByRegion]
    by_cases hxy : strLe x.region y.region = true
    · rw [if_pos hxy, List.pairwise_cons]
      refine ⟨?_, List.Pairwise.cons h.1 h.2⟩
      intro z hz
      rcases List.mem_cons.mp hz with rfl | hz
      · exact hxy
      · exact strLe_trans _ _ _ hxy (h.1 z hz)
    · rw [if_neg hxy, List.pairwise_cons]
      refine ⟨?_, ih h.2⟩
      intro z hz
      have hz' := (perm_insertByRegion x ys).mem_iff.mp hz
      rcases List.mem_cons.mp hz' with rfl | hz'
      · rcases strLe_total z.region y.region with hh | hh
        · exact absurd hh hxy
        · exact hh
      · exact h.1 z hz'

theorem sorted_sortByRegion (l : List RegionPre) :
    (sortByRegion l).Pairwise (fun a b => strLe a.region b.region = true) := by
  induction l with
  | nil => simp [sortByRegion]
  | cons x xs ih => exact sorted_insertByRegion x (sortByRegion xs) ih

/-! ## Calendar lemmas -/

theorem monthLen_one (b : Bool) : monthLen b 1 = 31 := by cases b <;> rfl

theorem monthLen_twelve (b : Bool) : monthLen b 12 = 31 := by cases b <;> rfl

theorem daysBeforeMonth_one (b : Bool) : daysBeforeMonth b 1 = 0 := by cases b <;> rfl

theorem monthLen_pos (b : Bool) (m : Nat) (h1 : 1 ≤ m) (h2 : m ≤ 12) : 0 < monthLen b m := by
  interval_cases m <;> cases b <;> decide

theorem monthLen_le_31 (b : Bool) (m : Nat) (h1 : 1 ≤ m) (h2 : m ≤ 12) : monthLen b m ≤ 31 := by
  interval_cases m <;> cases b <;> decide

theorem daysBeforeMonth_succ (leap : Bool) (m : Nat) (h1 : 1 ≤ m) :
    daysBeforeMonth leap (m + 1) = daysBeforeMonth leap m + monthLen leap m := by
  obtain ⟨n, rfl⟩ : ∃ n, m = n + 1 := ⟨m - 1, (Nat.succ_pred_eq_of_pos h1).symm⟩
  unfold daysBeforeMonth
  simp only [Nat.add_sub_cancel]
  exact List.sum_range_succ (fun i => monthLen leap (i + 1)) n

theorem isLeap_iff (y : Nat) : isLeap y = true ↔ y % 4 = 0 ∧ (y % 100 ≠ 0 ∨ y % 400 = 0) := by
  unfold isLeap
  simp [Bool.and_eq_true, beq_iff_eq, Bool.or_eq_true, bne_iff_ne]

set_option maxHeartbeats 1000000 in
theorem daysBeforeYear_succ (y : Nat) (hy : 1 ≤ y) :
    daysBeforeYear (y + 1) = daysBeforeYear y + daysInYear y := by
  unfold daysBeforeYear daysInYear
  by_cases hl : y % 4 = 0 ∧ (y % 100 ≠ 0 ∨ y % 400 = 0)
  · rw [if_pos ((isLeap_iff y).mpr hl)]
    simp only [Nat.add_sub_cancel]
    omega
  · rw [if_neg (fun h => hl ((isLeap_iff y).mp h))]
    simp only [Nat.add_sub_cancel]
    push_neg at hl
    omega

theorem jan1_valid (y : Nat) (hy : 1 ≤ y) : ValidDate ⟨y, 1, 1⟩ :=
  ⟨hy, le_refl 1, by norm_num, le_refl 1, by rw [monthLen_one]; norm_num⟩

theorem nextDay_valid (d : Date) (h : ValidDate d) : ValidDate (nextDay d) := by
  obtain ⟨hy, hm1, hm2, hd1, hd2⟩ := h
  unfold nextDay
  split_ifs with h1 h2
  · exact ⟨hy, hm1, hm2, Nat.succ_le_succ (Nat.zero_le _), h1⟩
  · exact ⟨hy, Nat.succ_le_succ (Nat.zero_le _), h2, le_refl 1,
      monthLen_pos _ _ (Nat.succ_le_succ (Nat.zero_le _)) h2⟩
  · exact ⟨Nat.le_succ_of_le hy, le_refl 1, by norm_num, le_refl 1,
      le_of_le_of_eq (by norm_num) (monthLen_one _).symm⟩

theorem toOrd_nextDay (d : Date) (h : ValidDate d) : toOrd (nextDay d) = toOrd d + 1 := by
  obtain ⟨hy, hm1, hm2, hd1, hd2⟩ := h
  unfold nextDay
  split_ifs with h1 h2
  · simp only [toOrd]
    omega
  · simp only [toOrd]
    rw [daysBeforeMonth_succ _ _ hm1]
    omega
  · have hm : d.month = 12 := by omega
    have h31 : monthLen (isLeap d.year) 12 = 31 := monthLen_twelve _
    have hday : d.day = 31 := by rw [hm] at hd2 h1; omega
    simp only [toOrd, hm, hday]
    rw [daysBeforeYear_succ _ hy, daysBeforeMonth_one]
    unfold daysInYear
    cases hL : isLeap d.year
    · have h334 : daysBeforeMonth false 12 = 334 := by decide
      rw [if_neg (by decide : ¬(false = true)), h334]
    · have h335 : daysBeforeMonth true 12 = 335 := by decide
      rw [if_pos rfl, h335]

theorem dateKey_lt_nextDay (d : Date) (h : ValidDate d) : dateKey d < dateKey (nextDay d) := by
  obtain ⟨hy, hm1, hm2, hd1, hd2⟩ := h
  have hle : monthLen (isLeap d.year) d.month ≤ 31 := monthLen_le_31 _ _ hm1 hm2
  unfold nextDay
  split_ifs with h1 h2
  · simp only [dateKey]
    omega
  · simp only [dateKey]
    omega
  · simp only [dateKey]
    omega

theorem iterate_nextDay_jan1 (y : Nat) (hy : 1 ≤ y) :
    ∀ k, k < daysInYear y →
      ValidDate (nextDay^[k] ⟨y, 1, 1⟩) ∧ (nextDay^[k] ⟨y, 1, 1⟩).year = y ∧
        toOrd (nextDay^[k] ⟨y, 1, 1⟩) = toOrd ⟨y, 1, 1⟩ + k := by
  intro k
  induction k with
  | zero => exact fun _ => ⟨jan1_valid y hy, rfl, rfl⟩
  | succ k ih =>
    intro hk
    obtain ⟨hv, hyr, hord⟩ := ih (by omega)
    rw [Function.iterate_succ_apply']
    set d := nextDay^[k] (⟨y, 1, 1⟩ : Date) with hd
    refine ⟨nextDay_valid d hv, ?_, by rw [toOrd_nextDay d hv, hord]; omega⟩
    obtain ⟨h1, h2, h3, h4, h5⟩ := hv
    unfold nextDay
    split_ifs with c1 c2
    · exact hyr
    · exact hyr
    · exfalso
      have hm : d.month = 12 := by omega
      have h31 : monthLen (isLeap d.year) 12 = 31 := monthLen_twelve _
      have hday : d.day = 31 := by rw [hm] at h5 c1; omega
      have hto : toOrd d = daysBeforeYear y + daysBeforeMonth (isLeap y) 12 + 31 := by
        simp only [toOrd, hyr, hm, hday]
      have hj : toOrd (⟨y, 1, 1⟩ : Date) = daysBeforeYear y + 1 := by
        simp only [toOrd, daysBeforeMonth_one]
      rw [hto, hj] at hord
      unfold daysInYear at hk
      cases hL : isLeap y
      · rw [hL] at hord hk
        have : daysBeforeMonth false 12 = 334 := by decide
        simp only [Bool.false_eq_true, if_false] at hk
        omega
      · rw [hL] at hord hk
        have : daysBeforeMonth true 12 = 335 := by decide
        simp only [if_true] at hk
        omega

theorem dateKey_iterate_bounds (y k : Nat) (hy : 1 ≤ y) (hk : k ≤ 364) :
    y * 10000 + 101 ≤ dateKey (nextDay^[k] ⟨y, 1, 1⟩) ∧
      dateKey (nextDay^[k] ⟨y, 1, 1⟩) ≤ y * 10000 + 1231 ∧
      (isLeap y = true → dateKey (nextDay^[k] ⟨y, 1, 1⟩) ≠ y * 10000 + 1231) := by
  have hlt : k < daysInYear y := by unfold daysInYear; split_ifs <;> omega
  obtain ⟨hv, hyr, hord⟩ := iterate_nextDay_jan1 y hy k hlt
  set d := nextDay^[k] (⟨y, 1, 1⟩ : Date) with hd
  obtain ⟨h1, h2, h3, h4, h5⟩ := hv
  have hle31 : monthLen (isLeap d.year) d.month ≤ 31 := monthLen_le_31 _ _ h2 h3
  refine ⟨by simp only [dateKey, hyr]; omega, by simp only [dateKey, hyr]; omega, ?_⟩
  intro hL heq
  simp only [dateKey, hyr] at heq
  have hm12 : d.month = 12 ∧ d.day = 31 := by omega
  have hto : toOrd d = daysBeforeYear y + daysBeforeMonth (isLeap y) 12 + 31 := by
    simp only [toOrd, hyr, hm12.1, hm12.2]
  have hj : toOrd (⟨y, 1, 1⟩ : Date) = daysBeforeYear y + 1 := by
    simp only [toOrd, daysBeforeMonth_one]
  rw [hto, hj] at hord
  rw [hL] at hord
  have : daysBeforeMonth true 12 = 335 := by decide
  omega

/-! ## Date-range lemmas -/

theorem dateRangeAux_map_toOrd (fuel : Nat) : ∀ (cur : Date) (stop : Nat),
    ValidDate cur → fuel = stop + 1 - toOrd cur →
    (dateRangeAux fuel cur stop).map toOrd = List.range' (toOrd cur) fuel := by
  induction fuel with
  | zero => intro cur stop _ _; rfl
  | succ fuel ih =>
    intro cur stop hv hfuel
    have hle : toOrd cur ≤ stop := by omega
    have hnext := toOrd_nextDay cur hv
    simp only [dateRangeAux, if_pos hle, List.map_cons]
    rw [List.range'_succ]
    congr 1
    rw [ih (nextDay cur) stop (nextDay_valid cur hv) (by omega), hnext]

theorem dateRange_length (s e : Date) (hv : ValidDate s) :
    (dateRange s e).length = toOrd e + 1 - toOrd s := by
  have h := congrArg List.length
    (dateRangeAux_map_toOrd (toOrd e + 1 - toOrd s) s (toOrd e) hv rfl)
  simpa using h

theorem dateRange_nil (s e : Date) (h : toOrd e < toOrd s) : dateRange s e = [] := by
  unfold dateRange
  have h0 : toOrd e + 1 - toOrd s = 0 := by omega
  rw [h0]
  rfl

theorem dateRangeAux_head (fuel : Nat) (cur : Date) (stop : Nat) :
    dateRangeAux fuel cur stop = [] ∨ (dateRangeAux fuel cur stop).head? = some cur := by
  cases fuel with
  | zero => exact Or.inl rfl
  | succ fuel =>
    by_cases h : toOrd cur ≤ stop
    · right
      simp [dateRangeAux, h]
    · left
      simp [dateRangeAux, h]

theorem dateRangeAux_chain (fuel : Nat) : ∀ (cur : Date) (stop : Nat), ValidDate cur →
    (dateRangeAux fuel cur stop).Chain' (fun a b => dateKey a < dateKey b) := by
  induction fuel with
  | zero => intro cur stop _; simp [dateRangeAux]
  | succ fuel ih =>
    intro cur stop hv
    by_cases h : toOrd cur ≤ stop
    · simp only [dateRangeAux, if_pos h]
      rw [List.chain'_cons']
      refine ⟨?_, ih (nextDay cur) stop (nextDay_valid cur hv)⟩
      intro y hy
      rcases dateRangeAux_head fuel (nextDay cur) stop with hnil | hhead
      · rw [hnil] at hy
        simp at hy
      · rw [hhead] at hy
        simp only [Option.mem_def, Option.some.injEq] at hy
        subst hy
        exact dateKey_lt_nextDay cur hv
    · simp [dateRangeAux, h]

theorem dateRangeAux_iterate_mem : ∀ (k fuel : Nat) (cur : Date) (stop : Nat), ValidDate cur →
    fuel = stop + 1 - toOrd cur → toOrd cur + k ≤ stop →
    nextDay^[k] cur ∈ dateRangeAux fuel cur stop := by
  intro k
  induction k with
  | zero =>
    intro fuel cur stop hv hfuel hk
    obtain ⟨fuel', rfl⟩ : ∃ f, fuel = f + 1 := ⟨stop - toOrd cur, by omega⟩
    simp [dateRangeAux, if_pos (by omega : toOrd cur ≤ stop)]
  | succ k ih =>
    intro fuel cur stop hv hfuel hk
    obtain ⟨fuel', rfl⟩ : ∃ f, fuel = f + 1 := ⟨stop - toOrd cur, by omega⟩
    have hnext := toOrd_nextDay cur hv
    rw [Function.iterate_succ_apply]
    simp only [dateRangeAux, if_pos (by omega : toOrd cur ≤ stop)]
    exact List.mem_cons_of_mem _
      (ih fuel' (nextDay cur) stop (nextDay_valid cur hv) (by omega) (by omega))

theorem is_weekend_iff_day_name (d : Date) :
    (mkDateDimRow d).is_weekend = 1 ↔
      (mkDateDimRow d).day_name = "Saturday" ∨ (mkDateDimRow d).day_name = "Sunday" := by
  have h7 : pyWeekday d < 7 := Nat.mod_lt _ (by norm_num)
  simp only [mkDateDimRow, dayName]
  set w := pyWeekday d with hw
  clear_value w
  interval_cases w <;> simp

/-! ## Deterministic-date lemmas -/

theorem deterministc_eq (row_id : Int) (year : Nat) :
    deterministc_date_for_row row_id year =
      dateKey (nextDay^[sha256Nat (strBytes (toString row_id)) % 365] ⟨year, 1, 1⟩) := by
  unfold deterministc_date_for_row
  simp only [Nat.add_sub_cancel]

theorem date_key_mem_2010 (rid : Int) :
    deterministc_date_for_row rid 2010 ∈
      (make_date_dim ⟨2010, 1, 1⟩ ⟨2010, 12, 31⟩).map DateDimRow.date_key := by
  rw [deterministc_eq]
  set k := sha256Nat (strBytes (toString rid)) % 365 with hk
  have hk365 : k < 365 := Nat.mod_lt _ (by norm_num)
  have hmem : nextDay^[k] ⟨2010, 1, 1⟩ ∈ dateRange ⟨2010, 1, 1⟩ ⟨2010, 12, 31⟩ := by
    unfold dateRange
    apply dateRangeAux_iterate_mem k _ _ _ (jan1_valid 2010 (by norm_num)) rfl
    have h1 : toOrd (⟨2010, 1, 1⟩ : Date) = 733773 := by decide
    have h2 : toOrd (⟨2010, 12, 31⟩ : Date) = 734137 := by decide
    omega
  simp only [make_date_dim, List.map_map]
  exact List.mem_map_of_mem _ hmem

/-! ## Pipeline lemmas: insured dimension -/

theorem withKeys_map_pos {α β γ : Type} (mk : α → Nat → β) (p : β → γ) (f : Nat → γ)
    (hp : ∀ a j, p (mk a j) = f j) (i : Nat) (l : List α) :
    (withKeys mk i l).map p = (List.range' i l.length).map f := by
  induction l generalizing i with
  | nil => rfl
  | cons a as ih => simp [withKeys, List.range'_succ, hp, ih]

theorem insuredDim_map_tuple (records : List RawRecord) :
    (insuredDim records).map InsuredRow.tuple =
      dedupFirst ((records.map enrich).map insuredTuple) := by
  unfold insuredDim
  rw [withKeys_map_proj InsuredRow.mk InsuredRow.tuple id (fun a j => rfl), List.map_id]

theorem insuredDim_tuple_nodup (records : List RawRecord) :
    ((insuredDim records).map InsuredRow.tuple).Nodup := by
  rw [insuredDim_map_tuple]
  exact nodup_dedupFirst _

theorem insuredDim_map_key (records : List RawRecord) :
    (insuredDim records).map InsuredRow.insured_key =
      List.range' 1 (insuredDim records).length := by
  unfold insuredDim
  rw [withKeys_map_key InsuredRow.mk InsuredRow.insured_key (fun a j => rfl), length_withKeys]

theorem insuredDim_tuple_mem (records : List RawRecord) (r : RawRecord) (hr : r ∈ records) :
    ∃ d ∈ insuredDim records, d.tuple = insuredTuple (enrich r) := by
  have hmem : insuredTuple (enrich r) ∈ (insuredDim records).map InsuredRow.tuple := by
    rw [insuredDim_map_tuple, mem_dedupFirst]
    exact List.mem_map_of_mem _ (List.mem_map_of_mem _ hr)
  obtain ⟨d, hd, hdt⟩ := List.mem_map.mp hmem
  exact ⟨d, hd, hdt⟩

/-! ## Pipeline lemmas: region dimension -/

theorem regionJoined_eq_map (records : List RawRecord) (providers : List Provider)
    (hp : (providers.map Provider.region).Nodup) :
    regionJoined records providers = (sourceRegions records).map (fun ℓ =>
      RegionPre.mk ℓ
        ((providers.find? (fun p => p.region == ℓ)).map Provider.preferred_provider)
        ((providers.find? (fun p => p.region == ℓ)).map Provider.network_tier)) := by
  unfold regionJoined
  exact leftMerge_eq_map _ _ _ _
    (fun a _ => filter_beq_length_le_one Provider.region providers hp a)

theorem regionJoined_map_region (records : List RawRecord) (providers : List Provider)
    (hp : (providers.map Provider.region).Nodup) :
    (regionJoined records providers).map RegionPre.region = sourceRegions records := by
  rw [regionJoined_eq_map records providers hp, List.map_map]
  exact List.map_id _

theorem regionDim_map_region_perm (records : List RawRecord) (providers : List Provider)
    (hp : (providers.map Provider.region).Nodup) :
    ((regionDim records providers).map RegionRow.region).Perm (sourceRegions records) := by
  unfold regionDim
  rw [withKeys_map_proj mkRegionRow RegionRow.region RegionPre.region (fun a j => rfl)]
  have h1 := (perm_sortByRegion (regionJoined records providers)).map RegionPre.region
  rw [regionJoined_map_region records providers hp] at h1
  exact h1

theorem regionDim_region_nodup (records : List RawRecord) (providers : List Provider)
    (hp : (providers.map Provider.region).Nodup) :
    ((regionDim records providers).map RegionRow.region).Nodup :=
  (regionDim_map_region_perm records providers hp).nodup_iff.mpr (nodup_dedupFirst _)

theorem regionDim_length (records : List RawRecord) (providers : List Provider)
    (hp : (providers.map Provider.region).Nodup) :
    (regionDim records providers).length = (sourceRegions records).length := by
  have h := (regionDim_map_region_perm records providers hp).length_eq
  simpa using h

theorem regionDim_label_mem (records : List RawRecord) (providers : List Provider)
    (ℓ : String) (hℓ : ℓ ∈ sourceRegions records) :
    ∃ row ∈ regionDim records providers, row.region = ℓ := by
  obtain ⟨o, ho⟩ := leftMerge_left_mem (sourceRegions records) providers
    (fun ℓ p => p.region == ℓ)
    (fun ℓ p? => RegionPre.mk ℓ (p?.map Provider.preferred_provider)
      (p?.map Provider.network_tier)) ℓ hℓ
  have hs : RegionPre.mk ℓ (o.map Provider.preferred_provider) (o.map Provider.network_tier) ∈
      sortByRegion (regionJoined records providers) :=
    (perm_sortByRegion _).mem_iff.mpr ho
  obtain ⟨j, hj⟩ := exists_mem_withKeys mkRegionRow 1 _ _ hs
  exact ⟨_, hj, rfl⟩

/-! ## Pipeline lemmas: fact table -/

theorem factStep1_eq_map (records : List RawRecord) :
    factStep1 records = (records.map enrich).map (fun r =>
      (r, ((insuredDim records).find? (fun d => d.tuple == insuredTuple r)).map
        InsuredRow.insured_key)) := by
  unfold factStep1
  exact leftMerge_eq_map _ _ _ _
    (fun r _ => filter_beq_length_le_one InsuredRow.tuple _ (insuredDim_tuple_nodup records) _)

theorem factPre_eq_map (records : List RawRecord) (providers : List Provider)
    (hp : (providers.map Provider.region).Nodup) :
    factPre records providers = (records.map enrich).map (fun r =>
      (r, ((insuredDim records).find? (fun d => d.tuple == insuredTuple r)).map
        InsuredRow.insured_key,
        ((regionDim records providers).find? (fun d => d.region == r.region)).map
          RegionRow.region_key)) := by
  unfold factPre
  rw [leftMerge_eq_map _ _ _ _
    (fun a _ => filter_beq_length_le_one RegionRow.region _
      (regionDim_region_nodup records providers hp) _),
    factStep1_eq_map records, List.map_map]
  rfl

theorem factPre_length (records : List RawRecord) (providers : List Provider)
    (hp : (providers.map Provider.region).Nodup) :
    (factPre records providers).length = records.length := by
  rw [factPre_eq_map records providers hp]
  simp

theorem factRows_length (records : List RawRecord) (providers : List Provider)
    (hp : (providers.map Provider.region).Nodup) :
    (factRows records providers).length = records.length := by
  unfold factRows factWithRow
  rw [length_withKeys, length_withKeys]
  exact factPre_length records providers hp

theorem factRows_map_claim (records : List RawRecord) (providers : List Provider)
    (hp : (providers.map Provider.region).Nodup) :
    (factRows records providers).map FactRow.claim_key = List.range' 1 records.length := by
  unfold factRows factWithRow
  rw [withKeys_map_key mkFactRow FactRow.claim_key (fun a j => rfl), length_withKeys,
    factPre_length records providers hp]

theorem factRows_map_charges (records : List RawRecord) (providers : List Provider)
    (hp : (providers.map Provider.region).Nodup) :
    (factRows records providers).map FactRow.charges = records.map RawRecord.charges := by
  unfold factRows factWithRow
  rw [withKeys_map_proj mkFactRow FactRow.charges (fun x => x.1.1.charges) (fun a j => rfl),
    withKeys_map_proj (fun x i => (x, i))
      (fun x : (InsRecord × Option Nat × Option Nat) × Nat => x.1.1.charges)
      (fun x => x.1.charges) (fun a j => rfl),
    factPre_eq_map records providers hp, List.map_map, List.map_map]
  rfl

theorem factRows_map_date (records : List RawRecord) (providers : List Provider)
    (hp : (providers.map Provider.region).Nodup) :
    (factRows records providers).map FactRow.date_key =
      (List.range' 1 records.length).map
        (fun i => deterministc_date_for_row (Int.ofNat i) 2010) := by
  unfold factRows factWithRow
  rw [withKeys_map_proj mkFactRow FactRow.date_key
      (fun x => deterministc_date_for_row (Int.ofNat x.2) 2010) (fun a j => rfl),
    withKeys_map_pos (fun x i => (x, i))
      (fun x : (InsRecord × Option Nat × Option Nat) × Nat =>
        deterministc_date_for_row (Int.ofNat x.2) 2010)
      (fun i => deterministc_date_for_row (Int.ofNat i) 2010) (fun a j => rfl),
    factPre_length records providers hp]

theorem factRows_resolve (records : List RawRecord) (providers : List Provider)
    (hp : (providers.map Provider.region).Nodup) :
    ∀ f ∈ factRows records providers,
      (∃ d ∈ insuredDim records, f.insured_key = some d.insured_key) ∧
      (∃ row ∈ regionDim records providers, f.region_key = some row.region_key) := by
  intro f hf
  unfold factRows factWithRow at hf
  obtain ⟨x, hx, j2, rfl⟩ := mem_withKeys _ _ _ _ hf
  obtain ⟨y, hy, j1, rfl⟩ := mem_withKeys _ _ _ _ hx
  rw [factPre_eq_map records providers hp] at hy
  obtain ⟨r0, hr0, rfl⟩ := List.mem_map.mp hy
  obtain ⟨raw, hraw, rfl⟩ := List.mem_map.mp hr0
  constructor
  · obtain ⟨d, hd, hdt⟩ := insuredDim_tuple_mem records raw hraw
    have hsome : ((insuredDim records).find?
        (fun d => d.tuple == insuredTuple (enrich raw))).isSome = true := by
      rw [List.find?_isSome]
      exact ⟨d, hd, beq_iff_eq.mpr hdt⟩
    obtain ⟨d0, hd0⟩ := Option.isSome_iff_exists.mp hsome
    exact ⟨d0, List.mem_of_find?_eq_some hd0, by simp [mkFactRow, hd0]⟩
  · have hℓ : normalizeRegion raw.region ∈ sourceRegions records := by
      unfold sourceRegions
      rw [mem_dedupFirst]
      exact List.mem_map_of_mem _ hraw
    obtain ⟨row, hrow, hrr⟩ := regionDim_label_mem records providers _ hℓ
    have hsome : ((regionDim records providers).find?
        (fun d => d.region == (enrich raw).region)).isSome = true := by
      rw [List.find?_isSome]
      exact ⟨row, hrow, beq_iff_eq.mpr hrr⟩
    obtain ⟨row0, hrow0⟩ := Option.isSome_iff_exists.mp hsome
    exact ⟨row0, List.mem_of_find?_eq_some hrow0, by simp [mkFactRow, hrow0]⟩

/-! ## Region-row provenance -/

theorem regionDim_row_cases (records : List RawRecord) (providers : List Provider)
    (row : RegionRow) (hr : row ∈ regionDim records providers) :
    row.region ∈ sourceRegions records ∧
      ((∃ p ∈ providers, p.region = row.region ∧
          row.preferred_provider = some p.preferred_provider ∧
          row.network_tier = some p.network_tier) ∨
        (row.preferred_provider = none ∧ row.network_tier = none ∧
          ∀ p ∈ providers, p.region ≠ row.region)) := by
  unfold regionDim at hr
  obtain ⟨pre, hpre, j, rfl⟩ := mem_withKeys _ _ _ _ hr
  have hpre2 : pre ∈ regionJoined records providers :=
    (perm_sortByRegion _).mem_iff.mp hpre
  unfold regionJoined at hpre2
  obtain ⟨ℓ, hℓ, hcase⟩ := leftMerge_shape _ _ _ _ _ hpre2
  rcases hcase with ⟨rfl, hfil⟩ | ⟨p, hp, hsel, rfl⟩
  · refine ⟨hℓ, Or.inr ⟨rfl, rfl, fun p hp hpeq => ?_⟩⟩
    exact List.filter_eq_nil_iff.mp hfil p hp (beq_iff_eq.mpr hpeq)
  · exact ⟨hℓ, Or.inl ⟨p, hp, eq_of_beq hsel, rfl, rfl⟩⟩

/-! ## Reference functions and concrete data for the claims -/

/-- The age-band map as the code actually computes it, in closed form: the
top band is `[65, 200]`, and every age above 200 (or below 0) maps to
`"unknown"`. -/
def ageBandSpec (a : Int) : String :=
  if 0 ≤ a ∧ a ≤ 17 then "0-17"
  else if 18 ≤ a ∧ a ≤ 24 then "18-24"
  else if 25 ≤ a ∧ a ≤ 34 then "25-34"
  else if 35 ≤ a ∧ a ≤ 44 then "35-44"
  else if 45 ≤ a ∧ a ≤ 54 then "45-54"
  else if 55 ≤ a ∧ a ≤ 64 then "55-64"
  else if 65 ≤ a ∧ a ≤ 200 then "65+"
  else "unknown"

theorem find?_bin_cons (a lo hi : Int) (lab : String) (bs : List (Int × Int × String)) :
    List.find? (fun b => decide (b.1 ≤ a) && decide (a ≤ b.2.1)) ((lo, hi, lab) :: bs) =
      if lo ≤ a ∧ a ≤ hi then some (lo, hi, lab)
      else List.find? (fun b => decide (b.1 ≤ a) && decide (a ≤ b.2.1)) bs := by
  by_cases h : lo ≤ a ∧ a ≤ hi
  · rw [List.find?_cons_of_pos _ (by simp [h.1, h.2]), if_pos h]
  · rw [List.find?_cons_of_neg _ (by simpa using h), if_neg h]

/-- The three raw records of the end-to-end scenario. -/
def scenarioRecords : List RawRecord :=
  [⟨25, "F", 22, 0, "no", " East ", 1000⟩,
   ⟨70, "M", 31, 2, "yes", "east", 5000⟩,
   ⟨25, "F", 22, 0, "no", "west", 1200⟩]

/-! ## Claim theorems -/

/-- C1: for every list of raw records and the dimension tables built from
them by the same run (reference data keyed by distinct region labels), the
fact builder produces exactly one fact row per raw record in original
source order — same row count, charges in source order, claim keys exactly
`1..N` equal to each record's 1-based position, date keys computed from the
1-based row ids in order — and every fact row's insured, region and date
foreign keys resolve to an existing row of the corresponding dimension
table (no orphan facts). -/
theorem C1_fact_builder : ∀ (records : List RawRecord) (providers : List Provider),
    (providers.map Provider.region).Nodup →
    (factRows records providers).length = records.length ∧
    (factRows records providers).map FactRow.claim_key = List.range' 1 records.length ∧
    (factRows records providers).map FactRow.charges = records.map RawRecord.charges ∧
    (factRows records providers).map FactRow.date_key =
      (List.range' 1 records.length).map
        (fun i => deterministc_date_for_row (Int.ofNat i) 2010) ∧
    ∀ f ∈ factRows records providers,
      (∃ d ∈ insuredDim records, f.insured_key = some d.insured_key) ∧
      (∃ row ∈ regionDim records providers, f.region_key = some row.region_key) ∧
      f.date_key ∈ (make_date_dim ⟨2010, 1, 1⟩ ⟨2010, 12, 31⟩).map DateDimRow.date_key := by
  intro records providers hp
  refine ⟨factRows_length records providers hp, factRows_map_claim records providers hp,
    factRows_map_charges records providers hp, factRows_map_date records providers hp, ?_⟩
  intro f hf
  obtain ⟨h1, h2⟩ := factRows_resolve records providers hp f hf
  refine ⟨h1, h2, ?_⟩
  unfold factRows factWithRow at hf
  obtain ⟨x, hx, j, rfl⟩ := mem_withKeys _ _ _ _ hf
  exact date_key_mem_2010 _

/-- C2: `deterministc_date_for_row(row_id, year)` equals the YYYYMMDD
encoding of January 1 of `year` plus `d` days, where `d` is the SHA-256
digest of the decimal string of `row_id`, read as an unsigned integer,
modulo 365; the result always lies within `[year0101, year1231]`, is never
day 366 of a leap year, and equal inputs give equal date keys. -/
theorem C2_date_assigner : ∀ (row_id : Int) (year : Nat), 1 ≤ year →
    deterministc_date_for_row row_id year =
      dateKey (nextDay^[sha256Nat (strBytes (toString row_id)) % 365] ⟨year, 1, 1⟩) ∧
    year * 10000 + 101 ≤ deterministc_date_for_row row_id year ∧
    deterministc_date_for_row row_id year ≤ year * 10000 + 1231 ∧
    (isLeap year = true → deterministc_date_for_row row_id year ≠ year * 10000 + 1231) ∧
    ∀ r2 y2, r2 = row_id → y2 = year →
      deterministc_date_for_row r2 y2 = deterministc_date_for_row row_id year := by
  intro rid year hy
  have hk : sha256Nat (strBytes (toString rid)) % 365 ≤ 364 := by
    have := Nat.mod_lt (sha256Nat (strBytes (toString rid))) (y := 365) (by norm_num)
    omega
  obtain ⟨hlo, hhi, hne⟩ := dateKey_iterate_bounds year _ hy hk
  refine ⟨deterministc_eq rid year, ?_, ?_, ?_, ?_⟩
  · rw [deterministc_eq]
    exact hlo
  · rw [deterministc_eq]
    exact hhi
  · intro hL
    rw [deterministc_eq]
    exact hne hL
  · intro r2 y2 h1 h2
    rw [h1, h2]

/-- C3: the insured dimension builder deduplicates the seven-column natural
key, keeping first occurrences in first-occurrence order (the tuples of the
dimension are duplicate-free, form an order-preserving sublist of the
source tuples, cover every record, and are arranged by strictly increasing
position of each tuple's first occurrence in the source), assigns surrogate
keys exactly `1..N` in that order, and has as many rows as there are
distinct natural-key tuples. -/
theorem C3_simple_dimension : ∀ records : List RawRecord,
    ((insuredDim records).map InsuredRow.tuple).Nodup ∧
    ((insuredDim records).map InsuredRow.tuple).Sublist
      ((records.map enrich).map insuredTuple) ∧
    (∀ r ∈ records, ∃ d ∈ insuredDim records, d.tuple = insuredTuple (enrich r)) ∧
    (insuredDim records).map InsuredRow.insured_key =
      List.range' 1 (insuredDim records).length ∧
    (insuredDim records).length = ((records.map enrich).map insuredTuple).toFinset.card ∧
    ((insuredDim records).map InsuredRow.tuple).Pairwise (fun t1 t2 =>
      ((records.map enrich).map insuredTuple).indexOf t1 <
        ((records.map enrich).map insuredTuple).indexOf t2) := by
  intro records
  refine ⟨insuredDim_tuple_nodup records, ?_, insuredDim_tuple_mem records,
    insuredDim_map_key records, ?_, ?_⟩
  · rw [insuredDim_map_tuple]
    exact dedupFirst_sublist _
  · unfold insuredDim
    rw [length_withKeys]
    exact length_dedupFirst _
  · rw [insuredDim_map_tuple]
    exact dedupFirst_pairwise_indexOf _

/-- C4: the enriched (region) dimension builder takes the distinct
trimmed-and-lowercased source region labels, left-joins each against the
reference dataset, sorts by label (code-point string order, as pandas
does), assigns surrogate keys `1..N` in sorted order, and a region with no
reference match still yields a dimension row with null enrichment
attributes rather than an error. -/
theorem C4_enriched_dimension : ∀ (records : List RawRecord) (providers : List Provider),
    ((regionDim records providers).map RegionRow.region).Pairwise
      (fun a b => strLe a b = true) ∧
    (regionDim records providers).map RegionRow.region_key =
      List.range' 1 (regionDim records providers).length ∧
    (∀ ℓ ∈ sourceRegions records, ∃ row ∈ regionDim records providers, row.region = ℓ) ∧
    (∀ row ∈ regionDim records providers, row.region ∈ sourceRegions records) ∧
    ∀ row ∈ regionDim records providers,
      (∀ p ∈ providers, p.region ≠ row.region) →
        row.preferred_provider = none ∧ row.network_tier = none := by
  intro records providers
  refine ⟨?_, ?_, regionDim_label_mem records providers, ?_, ?_⟩
  · unfold regionDim
    rw [withKeys_map_proj mkRegionRow RegionRow.region RegionPre.region (fun a j => rfl)]
    exact List.pairwise_map.mpr (sorted_sortByRegion _)
  · unfold regionDim
    rw [withKeys_map_key mkRegionRow RegionRow.region_key (fun a j => rfl), length_withKeys]
  · intro row hrow
    exact (regionDim_row_cases records providers row hrow).1
  · intro row hrow hnone
    rcases (regionDim_row_cases records providers row hrow).2 with ⟨p, hp, hpr, _⟩ | h
    · exact absurd hpr (hnone p hp)
    · exact ⟨h.1, h.2.1⟩

/-- C5 counterexample: the code maps age 201 to `"unknown"`, not to
`"65+"` as the claim's range `[65, ∞)` requires. -/
theorem C5_counterexample : age_band 201 ≠ "65+" ∧ age_band 201 = "unknown" := by decide

/-- C5 (amended): `age_band` partitions `[0, 200]` into the seven labelled
ranges, with `"65+"` covering `[65, 200]` only, and returns `"unknown"`
exactly for ages below 0 or above 200. -/
theorem C5_age_band_amended : ∀ a : Int, age_band a = ageBandSpec a := by
  intro a
  unfold age_band ageBins ageBandSpec
  rw [find?_bin_cons, find?_bin_cons, find?_bin_cons, find?_bin_cons, find?_bin_cons,
    find?_bin_cons, find?_bin_cons]
  split_ifs <;> rfl

/-- C6: for non-negative `b`, `bmi_category` returns `"Underweight"` below
18.5, `"Normal"` on `[18.5, 25)`, `"Overweight"` on `[25, 30)` and
`"Obese"` from 30 on: inclusive at 18.5, exclusive at 25 and 30. -/
theorem C6_bmi_category : ∀ b : ℚ, 0 ≤ b →
    (bmi_category b = "Underweight" ↔ b < 37 / 2) ∧
    (bmi_category b = "Normal" ↔ 37 / 2 ≤ b ∧ b < 25) ∧
    (bmi_category b = "Overweight" ↔ 25 ≤ b ∧ b < 30) ∧
    (bmi_category b = "Obese" ↔ 30 ≤ b) := by
  intro b hb
  unfold bmi_category
  split_ifs with h1 h2 h3
  · exact ⟨⟨fun _ => h1, fun _ => rfl⟩,
      ⟨fun h => absurd h (by decide), fun h => absurd h1 (by linarith [h.1])⟩,
      ⟨fun h => absurd h (by decide), fun h => absurd h1 (by linarith [h.1])⟩,
      ⟨fun h => absurd h (by decide), fun h => absurd h1 (by linarith)⟩⟩
  · refine ⟨⟨fun h => absurd h (by decide), fun h => absurd h h1⟩, ?_, ?_, ?_⟩
    · exact ⟨fun _ => ⟨le_of_not_lt h1, h2⟩, fun _ => rfl⟩
    · exact ⟨fun h => absurd h (by decide), fun h => absurd h2 (by linarith [h.1])⟩
    · exact ⟨fun h => absurd h (by decide), fun h => absurd h2 (by linarith)⟩
  · refine ⟨⟨fun h => absurd h (by decide), fun h => absurd h h1⟩,
      ⟨fun h => absurd h (by decide), fun h => absurd h.2 h2⟩, ?_, ?_⟩
    · exact ⟨fun _ => ⟨le_of_not_lt h2, h3⟩, fun _ => rfl⟩
    · exact ⟨fun h => absurd h (by decide), fun h => absurd h3 (by linarith)⟩
  · refine ⟨⟨fun h => absurd h (by decide), fun h => absurd h h1⟩,
      ⟨fun h => absurd h (by decide), fun h => absurd h.2 h2⟩,
      ⟨fun h => absurd h (by decide), fun h => absurd h.2 h3⟩, ?_⟩
    exact ⟨fun _ => le_of_not_lt h3, fun _ => rfl⟩

/-- C7: `make_date_dim(start, end)` yields one row per calendar day,
`(end - start).days + 1` rows in all, whose ordinals are exactly the
consecutive ordinals of the range (no gaps), with strictly ascending date
keys (no duplicates), weekend flag set exactly on Saturday and Sunday, and
an empty result rather than an error when `end < start`. -/
theorem C7_date_dimension : ∀ s e : Date, ValidDate s → ValidDate e →
    (toOrd e < toOrd s → make_date_dim s e = []) ∧
    (toOrd s ≤ toOrd e → (make_date_dim s e).length = toOrd e - toOrd s + 1) ∧
    ((make_date_dim s e).map (fun r => toOrd r.full_date) =
      List.range' (toOrd s) ((make_date_dim s e).length)) ∧
    ((make_date_dim s e).map DateDimRow.date_key).Pairwise (· < ·) ∧
    ∀ r ∈ make_date_dim s e,
      (r.is_weekend = 1 ↔ (r.day_name = "Saturday" ∨ r.day_name = "Sunday")) := by
  intro s e hs he
  refine ⟨?_, ?_, ?_, ?_, ?_⟩
  · intro h
    unfold make_date_dim
    rw [dateRange_nil s e h]
    rfl
  · intro h
    unfold make_date_dim
    rw [List.length_map, dateRange_length s e hs]
    omega
  · unfold make_date_dim
    rw [List.map_map, List.length_map, dateRange_length s e hs]
    exact dateRangeAux_map_toOrd _ s (toOrd e) hs rfl
  · unfold make_date_dim
    rw [← List.chain'_iff_pairwise, List.map_map, List.chain'_map]
    exact dateRangeAux_chain _ s (toOrd e) hs
  · intro r hr
    unfold make_date_dim at hr
    obtain ⟨d, hd, rfl⟩ := List.mem_map.mp hr
    exact is_weekend_iff_day_name d

/-- C8: on the three scenario records, against any reference dataset keyed
by distinct region labels, the pipeline produces an insured dimension with
exactly 2 rows (records 1 and 3 collapse: the natural key excludes
charges), a region dimension with exactly 2 rows (east and west after
trimming and lowercasing), a fact table with exactly 3 rows, and total
summed charges of 7200. -/
theorem C8_end_to_end : ∀ providers : List Provider,
    (providers.map Provider.region).Nodup →
    (insuredDim scenarioRecords).length = 2 ∧
    (regionDim scenarioRecords providers).length = 2 ∧
    (factRows scenarioRecords providers).length = 3 ∧
    ((factRows scenarioRecords providers).map FactRow.charges).sum = 7200 := by
  intro providers hp
  refine ⟨?_, ?_, ?_, ?_⟩
  · norm_num [insuredDim, withKeys, dedupFirst, dedupFirstAux, enrich, insuredTuple,
      bmi_category, age_band, ageBins, normalizeRegion, trimChars, isSpaceChar, scenarioRecords]
  · rw [regionDim_length scenarioRecords providers hp]
    decide
  · rw [factRows_length scenarioRecords providers hp]
    decide
  · rw [factRows_map_charges scenarioRecords providers hp]
    norm_num [scenarioRecords]

/-- C9: in the region enrichment join only the source side is trimmed and
lowercased; the reference region field is compared verbatim, so a region
row's enrichment attributes are non-null exactly when some reference entry
is byte-for-byte equal to the normalized source label. -/
theorem C9_verbatim_reference_join : ∀ (records : List RawRecord) (providers : List Provider),
    ∀ row ∈ regionDim records providers,
      ((row.preferred_provider.isSome = true) ↔ ∃ p ∈ providers, p.region = row.region) ∧
      ((row.network_tier.isSome = true) ↔ ∃ p ∈ providers, p.region = row.region) := by
  intro records providers row hrow
  rcases (regionDim_row_cases records providers row hrow).2 with ⟨p, hp, hpr, h1, h2⟩ | ⟨h1, h2, h3⟩
  · constructor
    · exact ⟨fun _ => ⟨p, hp, hpr⟩, fun _ => by rw [h1]; rfl⟩
    · exact ⟨fun _ => ⟨p, hp, hpr⟩, fun _ => by rw [h2]; rfl⟩
  · constructor
    · refine ⟨fun hs => ?_, fun ⟨p, hp, hpr⟩ => absurd hpr (h3 p hp)⟩
      rw [h1] at hs
      exact absurd hs (by simp)
    · refine ⟨fun hs => ?_, fun ⟨p, hp, hpr⟩ => absurd hpr (h3 p hp)⟩
      rw [h2] at hs
      exact absurd hs (by simp)

/-- C10: `etl_pipeline.py` never binds the name `np` (numpy is not
imported), so the fact-construction step, which evaluates `np.arange`,
raises `NameError` on every input and the sqlite pipeline variant never
reaches the load stage. -/
theorem C10_unbound_np : ∀ (records : List RawRecord) (providers : List Provider),
    "np" ∉ etlPipelineNames ∧
    mainFromFactStep records providers =
      Except.error "NameError: name np is not defined" := by
  intro records providers
  exact ⟨by decide, rfl⟩

/-! ## Witnesses -/

/-- Reference rows used by the C1 witness. -/
def witnessProviders : List Provider := [⟨"east", "Acme Health", "gold"⟩]

/-- C1 witness at the scenario records and a one-entry reference list. -/
theorem C1_fact_builder_witness :
    (witnessProviders.map Provider.region).Nodup ∧
      (factRows scenarioRecords witnessProviders).length = scenarioRecords.length :=
  ⟨by decide, (C1_fact_builder scenarioRecords witnessProviders (by decide)).1⟩

/-- C2 witness at row id 1 and year 2010. -/
theorem C2_date_assigner_witness :
    1 ≤ 2010 ∧ 2010 * 10000 + 101 ≤ deterministc_date_for_row 1 2010 :=
  ⟨by norm_num, (C2_date_assigner 1 2010 (by norm_num)).2.1⟩

/-- C3 witness: the first scenario record resolves in the insured dimension. -/
theorem C3_simple_dimension_witness :
    RawRecord.mk 25 "F" 22 0 "no" " East " 1000 ∈ scenarioRecords ∧
      ∃ d ∈ insuredDim scenarioRecords,
        d.tuple = insuredTuple (enrich (RawRecord.mk 25 "F" 22 0 "no" " East " 1000)) :=
  ⟨List.mem_cons_self _ _,
    (C3_simple_dimension scenarioRecords).2.2.1 _ (List.mem_cons_self _ _)⟩

/-- C4 witness: the label `"east"` occurs in the scenario's distinct
normalized labels and yields a region row. -/
theorem C4_enriched_dimension_witness :
    "east" ∈ sourceRegions scenarioRecords ∧
      ∃ row ∈ regionDim scenarioRecords witnessProviders, row.region = "east" :=
  ⟨by decide, (C4_enriched_dimension scenarioRecords witnessProviders).2.2.1 "east" (by decide)⟩

/-- C5 witness: the amended equation evaluated at the boundary age 17. -/
theorem C5_age_band_amended_witness : age_band 17 = ageBandSpec 17 :=
  C5_age_band_amended 17

/-- C6 witness at a BMI of 20. -/
theorem C6_bmi_category_witness :
    (0 : ℚ) ≤ 20 ∧ (bmi_category 20 = "Normal" ↔ 37 / 2 ≤ (20 : ℚ) ∧ (20 : ℚ) < 25) :=
  ⟨by norm_num, (C6_bmi_category 20 (by norm_num)).2.1⟩

/-- C7 witness on the range 2010-01-01 to 2010-01-10. -/
theorem C7_date_dimension_witness :
    ValidDate ⟨2010, 1, 1⟩ ∧ ValidDate ⟨2010, 1, 10⟩ ∧ toOrd ⟨2010, 1, 1⟩ ≤ toOrd ⟨2010, 1, 10⟩ ∧
      (make_date_dim ⟨2010, 1, 1⟩ ⟨2010, 1, 10⟩).length =
        toOrd ⟨2010, 1, 10⟩ - toOrd ⟨2010, 1, 1⟩ + 1 :=
  ⟨by decide, by decide, by decide,
    (C7_date_dimension ⟨2010, 1, 1⟩ ⟨2010, 1, 10⟩ (by decide) (by decide)).2.1 (by decide)⟩

/-- C8 witness with an empty reference dataset. -/
theorem C8_end_to_end_witness :
    (([] : List Provider).map Provider.region).Nodup ∧
      (factRows scenarioRecords []).length = 3 :=
  ⟨by decide, (C8_end_to_end [] (by decide)).2.2.1⟩

/-- Records used by the C9 witness: one raw region label `" East "`. -/
def w9records : List RawRecord := [⟨25, "F", 22, 0, "no", " East ", 1000⟩]

/-- Reference used by the C9 witness: entry `"East"`, differing from the
normalized label `"east"` only in case. -/
def w9providers : List Provider := [⟨"East", "Prime Care", "silver"⟩]

/-- C9 witness: the case-mismatched reference entry yields a null-enriched
row for `"east"`. -/
theorem C9_verbatim_reference_join_witness :
    RegionRow.mk "east" none none 1 ∈ regionDim w9records w9providers ∧
      ((RegionRow.mk "east" none none 1).preferred_provider.isSome = true ↔
        ∃ p ∈ w9providers, p.region = (RegionRow.mk "east" none none 1).region) :=
  ⟨by decide, (C9_verbatim_reference_join w9records w9providers _ (by decide)).1⟩

/-- C10 witness at empty inputs. -/
theorem C10_unbound_np_witness :
    mainFromFactStep [] [] = Except.error "NameError: name np is not defined" :=
  (C10_unbound_np [] []).2

end ETL
